import Mathlib

/-!
Verification of the process-discovery and target-reconciliation layer of the
iluxa/tracer repository.  The Go sources are shallowly embedded: strings become
`List Char`, file and directory reads become explicit inputs (`ProcFS`), and
the external capture-engine calls become an explicit call trace.  Functions
from the Go standard library used by the sources (`strings.Split`,
`path.Base`, `filepath.Ext`, `strconv.Atoi`, `net/url.Parse`, ...) are
modelled from their documented behaviour, restricted where noted to the
input shapes this repository can produce.
-/

/-!
Model of Go `net/url.Parse`, restricted to what `buildContainerIdsMap` needs:
scheme detection, authority/host extraction and the error cases
(missing scheme, control bytes, colon in a schemeless first segment, invalid
port, invalid userinfo).  Percent-escapes and IPv6 bracket zones are not
modelled: inputs containing `%` are treated as parse failures, which no input
in this development exercises.
-/

namespace Tracer

/-- Character class: ASCII decimal digit (Go `'0' <= c && c <= '9'`). -/
def isDigitC (c : Char) : Bool := '0' ≤ c && c ≤ '9'

/-- Character class: ASCII letter (Go `'a' <= c && c <= 'z' || 'A' <= c && c <= 'Z'`). -/
def isAlphaC (c : Char) : Bool := ('a' ≤ c && c ≤ 'z') || ('A' ≤ c && c ≤ 'Z')

/-- Character class: ASCII letter or digit. -/
def isAlphaNumC (c : Char) : Bool := isAlphaC c || isDigitC c

/-- Character class: whitespace trimmed by Go `strings.TrimSpace`.
    (Go also trims non-ASCII Unicode spaces; no input in this development
    contains those, so the ASCII subset is faithful here.) -/
def isSpaceGo (c : Char) : Bool :=
  c = ' ' || c = '\t' || c = '\n' || c = '\x0b' || c = '\x0c' || c = '\r'

/-- Character class: control byte as rejected by Go `net/url` (`< 0x20` or `0x7f`). -/
def isCtl (c : Char) : Bool := c.toNat < 0x20 || c.toNat = 0x7f

/-- Go `strings.Contains(s, string(c))` for a one-character pattern. -/
def containsC (c : Char) (s : List Char) : Bool := s.any (fun x => x == c)

/-- Go `strings.Split(s, string(c))` for a one-character separator. -/
def splitOnChar (c : Char) : List Char → List (List Char)
  | [] => [[]]
  | x :: xs =>
    match splitOnChar c xs with
    | [] => [[]]
    | p :: ps => if x = c then [] :: p :: ps else (x :: p) :: ps

/-- `parts[len(parts)-1]` of Go `strings.Split(s, string(c))`: the suffix of `s`
    after the last occurrence of `c`, or `s` itself when `c` does not occur. -/
def lastPart (c : Char) (s : List Char) : List Char :=
  (splitOnChar c s).getLastD []

/-- Go `strings.TrimSpace`: drop whitespace from both ends. -/
def trimSpace (s : List Char) : List Char :=
  ((s.dropWhile isSpaceGo).reverse.dropWhile isSpaceGo).reverse

/-- Go `path.Base`: strip trailing slashes, keep the part after the last `/`;
    `"."` for the empty path, `"/"` for an all-slash path. -/
def pathBase (p : List Char) : List Char :=
  if p = [] then ['.']
  else
    let p1 := (p.reverse.dropWhile (fun c => c = '/')).reverse
    let p2 := lastPart '/' p1
    if p2 = [] then ['/'] else p2

/-- Helper for `filepathExt`: walk the reversed path from the end; stop at the
    first `.` (returning the dot plus the accumulated tail) or at a `/`. -/
def extAux (acc : List Char) : List Char → List Char
  | [] => []
  | c :: rest =>
    if c = '/' then []
    else if c = '.' then '.' :: acc
    else extAux (c :: acc) rest

/-- Go `filepath.Ext`: the suffix from the final dot in the final path element. -/
def filepathExt (s : List Char) : List Char := extAux [] s.reverse

/-- Go `strings.HasPrefix s pat`. -/
def startsWithL : List Char → List Char → Bool
  | _, [] => true
  | [], _ :: _ => false
  | x :: xs, y :: ys => x == y && startsWithL xs ys

/-- Go `strings.HasSuffix s pat`. -/
def endsWithL (s pat : List Char) : Bool := startsWithL s.reverse pat.reverse

/-- Go `strings.TrimSuffix`. -/
def trimSuffix (s pat : List Char) : List Char :=
  if endsWithL s pat then s.take (s.length - pat.length) else s

/-- Go `strings.Contains s pat` (substring search). -/
def containsSubstr : List Char → List Char → Bool
  | [], pat => pat.isEmpty
  | x :: xs, pat => startsWithL (x :: xs) pat || containsSubstr xs pat

/-- Join lines back with the separator: inverse of `splitOnChar` on
    separator-free lines. -/
def intercalateChar (c : Char) : List (List Char) → List Char
  | [] => []
  | [l] => l
  | l :: ls => l ++ c :: intercalateChar c ls

/-- The literal `":pids:"` searched for by `extractCgroup`. -/
def pidsToken : List Char := (":pids:").data

/-- `extractCgroup` from the source: on a single-line file take the part after
    the last `:`; otherwise take the part after the last `:` of the first line
    containing `":pids:"`; empty if no such line. -/
def extractCgroup (lines : List (List Char)) : List Char :=
  if lines.length = 1 then lastPart ':' (lines.headD [])
  else
    match lines.find? (fun line => containsSubstr line pidsToken) with
    | some line => lastPart ':' line
    | none => []

/-- Suffix of `s` after its first occurrence of `c` (empty when `c ∉ s`).
    Equals Go `s[strings.Index(s, string(c))+1:]` whenever `c` occurs in `s`,
    which is the only situation in which the source uses that expression. -/
def afterFirst (c : Char) : List Char → List Char
  | [] => []
  | x :: xs => if x = c then xs else afterFirst c xs

/-- `normalizeCgroup` from the source: basename of the cgroup path, then strip
    everything up to and including the first `-` (the source's
    `basename[strings.Index(basename, "-")+1:]`), then strip a dotted suffix. -/
def normalizeCgroup (cgrouppath : List Char) : List Char :=
  let basename := trimSpace (pathBase cgrouppath)
  let basename := if containsC '-' basename then afterFirst '-' basename else basename
  if containsC '.' basename then trimSuffix basename (filepathExt basename) else basename

/-- The pure core of `getProcessCgroup` from the source, taking the cgroup
    file's content directly (the surrounding `os.ReadFile` is modelled by
    `getProcessCgroup` below over a `ProcFS`): split into lines, extract the
    cgroup path, keep the part after the last `-` if any, fail on empty,
    normalize. -/
def getProcessCgroupOfContent (content : List Char) : Option (List Char) :=
  let lines := splitOnChar '\n' content
  let cgrouppath := extractCgroup lines
  let cgrouppath := if containsC '-' cgrouppath then lastPart '-' cgrouppath else cgrouppath
  if cgrouppath = [] then none
  else some (normalizeCgroup cgrouppath)

/-- Scheme-character scan of Go `net/url.getScheme` after a leading letter:
    letters/digits/`+`/`-`/`.` continue, `:` ends the scheme, anything else
    means the string has no scheme. -/
def getSchemeCont (acc orig : List Char) : List Char → Option (List Char × List Char)
  | [] => some ([], orig)
  | c :: rest =>
    if c = ':' then some (acc, rest)
    else if isAlphaC c || isDigitC c || c = '+' || c = '-' || c = '.' then
      getSchemeCont (acc ++ [c]) orig rest
    else some ([], orig)

/-- Go `net/url.getScheme`: split `rawURL` into scheme and remainder.
    `none` models the "missing protocol scheme" error. -/
def getScheme (s : List Char) : Option (List Char × List Char) :=
  match s with
  | [] => some ([], [])
  | c :: rest =>
    if isAlphaC c then getSchemeCont [c] s rest
    else if c = ':' then none
    else some ([], s)

/-- Go `net/url.validOptionalPort`: empty, or `:` followed by digits only. -/
def validOptionalPort (p : List Char) : Bool :=
  match p with
  | [] => true
  | ':' :: digits => digits.all isDigitC
  | _ => false

/-- Go `net/url.parseHost` (no percent-escapes): bracketed hosts need a `]`
    and a valid optional port after it; otherwise a final `:...` must be a
    valid port. The host (with port) is returned as-is. -/
def parseHost (host : List Char) : Option (List Char) :=
  if containsC '%' host then none
  else if startsWithL host ['['] then
    if containsC ']' host then
      if validOptionalPort (lastPart ']' host) then some host else none
    else none
  else if containsC ':' host then
    if validOptionalPort (':' :: lastPart ':' host) then some host else none
  else some host

/-- Characters Go `net/url.validUserinfo` accepts (minus `%`, unmodelled). -/
def validUserinfoChar (c : Char) : Bool :=
  isAlphaNumC c || c = '-' || c = '.' || c = '_' || c = ':' || c = '~' || c = '!' ||
  c = '$' || c = '&' || c = '\'' || c = '(' || c = ')' || c = '*' || c = '+' ||
  c = ',' || c = ';' || c = '=' || c = '@'

/-- The part of the authority before its last `@` (the userinfo). -/
def beforeLastAt (authority : List Char) : List Char :=
  authority.take (authority.length - (lastPart '@' authority).length - 1)

/-- Go `net/url.parseAuthority`, returning only the host. -/
def parseAuthority (authority : List Char) : Option (List Char) :=
  if containsC '@' authority then
    if (beforeLastAt authority).all validUserinfoChar then
      parseHost (lastPart '@' authority)
    else none
  else parseHost authority

/-- The two `URL` fields `buildContainerIdsMap` can observe. -/
structure GoURL where
  scheme : List Char
  host : List Char
deriving DecidableEq

/-- Go `net/url.Parse` (fragment cut, control-byte check, scheme split, query
    cut, opaque/path/authority dispatch), returning the fields the tracer
    reads. `none` models a non-nil error. -/
def urlParse (rawURL : List Char) : Option GoURL :=
  let noFrag := rawURL.takeWhile (fun c => c ≠ '#')
  if noFrag.any isCtl then none
  else
    match getScheme noFrag with
    | none => none
    | some (scheme, rest) =>
      let rest := rest.takeWhile (fun c => c ≠ '?')
      if !startsWithL rest ['/'] then
        if !scheme.isEmpty then some ⟨scheme, []⟩
        else if containsC ':' (rest.takeWhile (fun c => c ≠ '/')) then none
        else some ⟨scheme, []⟩
      else if (!scheme.isEmpty || !startsWithL rest ['/', '/', '/']) &&
          startsWithL rest ['/', '/'] then
        match parseAuthority ((rest.drop 2).takeWhile (fun c => c ≠ '/')) with
        | none => none
        | some host => some ⟨scheme, host⟩
      else some ⟨scheme, []⟩

/-- One `v1.ContainerStatus`, reduced to the field the tracer reads. -/
structure ContainerStatus where
  containerID : List Char
deriving DecidableEq

/-- One `v1.Pod`, reduced to an identity and its container statuses. -/
structure Pod where
  uid : Nat
  containerStatuses : List ContainerStatus
deriving DecidableEq

/-- Go map assignment `m[k] = v` on an association-list model of
    `map[string]v1.Pod`: overwrite an existing key, otherwise append. -/
def mapUpsert (m : List (List Char × Pod)) (k : List Char) (v : Pod) :
    List (List Char × Pod) :=
  if m.any (fun e => e.1 == k) then
    m.map (fun e => if e.1 == k then (k, v) else e)
  else m ++ [(k, v)]

/-- Go map read `m[k]` on the association-list model. -/
def mapLookup (m : List (List Char × Pod)) (k : List Char) : Option Pod :=
  match m.find? (fun e => e.1 == k) with
  | some e => some e.2
  | none => none

/-- `buildContainerIdsMap` from the source: for every container status of
    every pod, parse the container ID as a URL; on error skip (log only);
    otherwise store the pod under the URL's host. -/
def buildContainerIdsMap (pods : List Pod) : List (List Char × Pod) :=
  pods.foldl (fun result pod =>
    pod.containerStatuses.foldl (fun result container =>
      match urlParse container.containerID with
      | none => result
      | some parsedUrl => mapUpsert result parsedUrl.host pod) result) []

/-- Go `strconv.Atoi` digit phase: nonempty all-digit strings to their value. -/
def digitsVal : List Char → Option Nat
  | [] => none
  | ds =>
    if ds.all isDigitC then
      some (ds.foldl (fun a c => a * 10 + (c.toNat - ('0').toNat)) 0)
    else none

/-- Go `strconv.Atoi`: optional sign, decimal digits, 64-bit range check;
    `none` models a non-nil error. -/
def atoi (s : List Char) : Option Int :=
  match s with
  | '+' :: ds => (digitsVal ds).bind (fun n => if n ≤ 2 ^ 63 - 1 then some (Int.ofNat n) else none)
  | '-' :: ds => (digitsVal ds).bind (fun n => if n ≤ 2 ^ 63 then some (-(Int.ofNat n)) else none)
  | ds => (digitsVal ds).bind (fun n => if n ≤ 2 ^ 63 - 1 then some (Int.ofNat n) else none)

/-- Go conversion `uint32(n)` from `int`: two's-complement truncation. -/
def toUInt32 (n : Int) : Nat := (n % (2 ^ 32 : Int)).toNat

/-- `numberRegex.MatchString(name)` for `numberRegex = "[0-9]+"`: Go regexp
    matching is unanchored, so this holds iff the name contains a digit. -/
def numberRegexMatch (s : List Char) : Bool := s.any isDigitC

/-- One `os.DirEntry` of the procfs listing. -/
structure DirEntry where
  name : List Char
  isDir : Bool

/-- The filesystem surface the discovery code touches: the procfs listing
    (`none` models an `os.ReadDir` error) and per-pid file reads (`none`
    models a read error). -/
structure ProcFS where
  entries : Option (List DirEntry)
  cgroupContent : List Char → Option (List Char)
  cmdline : List Char → Option (List Char)

/-- `getProcessCgroup` from the source over the `ProcFS` model: read
    `<procfs>/<pid>/cgroup` (failure propagates), then run the pure pipeline
    `getProcessCgroupOfContent`. -/
def getProcessCgroup (fs : ProcFS) (pid : List Char) : Option (List Char) :=
  match fs.cgroupContent pid with
  | none => none
  | some content => getProcessCgroupOfContent content

/-- Go map assignment for the `map[uint32]v1.Pod` result. -/
def mapUpsertNat (m : List (Nat × Pod)) (k : Nat) (v : Pod) : List (Nat × Pod) :=
  if m.any (fun e => e.1 == k) then
    m.map (fun e => if e.1 == k then (k, v) else e)
  else m ++ [(k, v)]

/-- `findContainerPids` from the source: list procfs (failure is fatal);
    keep directory entries matched by `numberRegex`; resolve each one's
    cgroup, look it up in the container index, parse the pid; any per-entry
    failure skips that entry. -/
def findContainerPids (fs : ProcFS) (containerIds : List (List Char × Pod)) :
    Option (List (Nat × Pod)) :=
  match fs.entries with
  | none => none
  | some pids =>
    some (pids.foldl (fun result pid =>
      if !pid.isDir then result
      else if !numberRegexMatch pid.name then result
      else
        match getProcessCgroup fs pid.name with
        | none => result
        | some cgroup =>
          match mapLookup containerIds cgroup with
          | none => result
          | some pod =>
            match atoi pid.name with
            | none => result
            | some pidNumber => mapUpsertNat result (toUInt32 pidNumber) pod) [])

/-- `findContainerPidsHost` from the source: list procfs (failure is fatal);
    keep directory entries matched by `numberRegex`; parse the pid; when a
    command-line pattern is configured, drop entries whose command line is
    unreadable or does not match. -/
def findContainerPidsHost (fs : ProcFS) (cmdLineRegex : Option (List Char → Bool)) :
    Option (List Nat) :=
  match fs.entries with
  | none => none
  | some pids =>
    some (pids.foldl (fun result pid =>
      if !pid.isDir then result
      else if !numberRegexMatch pid.name then result
      else
        match atoi pid.name with
        | none => result
        | some pidNumber =>
          match cmdLineRegex with
          | none => result ++ [toUInt32 pidNumber]
          | some re =>
            match fs.cmdline pid.name with
            | none => result
            | some cmdLine =>
              if re cmdLine then result ++ [toUInt32 pidNumber] else result) [])

/-- A call on the capture engine, as observed by `UpdateTargets`.  The `Bool`
    records whether the engine reported success for that call (the source
    only logs failures). -/
inductive EngineCall where
  | clearPids : EngineCall
  | addSSLLibPid : Nat → Bool → EngineCall
  | addGoPid : Nat → Bool → EngineCall
deriving DecidableEq

/-- `UpdateTargets` from the source, as the sequence of capture-engine calls
    it performs plus its success flag: build the index, discover pids (a
    listing failure aborts with an error), clear the engine's pid set, then
    for every discovered pid call `AddSSLLibPid` and `AddGoPid`; failures of
    those calls are only logged, and the pass returns no error. -/
def UpdateTargets (fs : ProcFS) (pods : List Pod) (sslOk goOk : Nat → Bool) :
    List EngineCall × Bool :=
  match findContainerPids fs (buildContainerIdsMap pods) with
  | none => ([], false)
  | some containerPids =>
    (containerPids.foldl (fun calls e =>
        calls ++ [EngineCall.addSSLLibPid e.1 (sslOk e.1),
                  EngineCall.addGoPid e.1 (goOk e.1)])
      [EngineCall.clearPids],
     true)

/-- Outcome of `createTracer` from `main.go`: whether it returned without
    error, and whether each env-gated global registration was attempted. -/
structure CreateTracerResult where
  ok : Bool
  sslGlobalAttempted : Bool
  goGlobalAttempted : Bool
deriving DecidableEq

/-- `createTracer` from `main.go`, with the collaborator calls abstracted to
    their success flags: `tracer.Init`, the initial `updateTargets` pass, and
    the two env-gated global registrations, each of which is attempted only
    if everything before it succeeded and its env variable is nonempty. -/
def createTracer (initOk updateTargetsOk : Bool)
    (libsslPidEnv golangPidEnv : List Char) (globalSSLOk globalGoOk : Bool) :
    CreateTracerResult :=
  if !initOk then ⟨false, false, false⟩
  else if !updateTargetsOk then ⟨false, false, false⟩
  else if !libsslPidEnv.isEmpty && !globalSSLOk then ⟨false, true, false⟩
  else if !golangPidEnv.isEmpty && !globalGoOk then
    ⟨false, !libsslPidEnv.isEmpty, true⟩
  else ⟨true, !libsslPidEnv.isEmpty, !golangPidEnv.isEmpty⟩

/-- Characterization stated from the amended claim C5: host-mode enumeration
    (no command-line filter) keeps exactly the directory entries whose name
    contains a digit and whose name `Atoi`-parses, in listing order. -/
def hostModeCandidates (entries : List DirEntry) : List Nat :=
  entries.filterMap (fun e =>
    if e.isDir && numberRegexMatch e.name then (atoi e.name).map toUInt32 else none)

/-- Synthetic procfs listing with mixed numeric/non-numeric names. -/
def fsFourEntries : ProcFS :=
  ⟨some [⟨("1").data, true⟩, ⟨("2").data, true⟩, ⟨("abc").data, true⟩, ⟨("17").data, true⟩],
   fun _ => none, fun _ => none⟩

/-- `fsFourEntries` plus a directory named `+5` (signed-numeric). -/
def fsMixedEntries : ProcFS :=
  ⟨some [⟨("1").data, true⟩, ⟨("2").data, true⟩, ⟨("abc").data, true⟩, ⟨("17").data, true⟩,
    ⟨("+5").data, true⟩], fun _ => none, fun _ => none⟩

/-- Synthetic procfs whose processes 5 and 6 live in container `abc`. -/
def fsTwoPids : ProcFS :=
  ⟨some [⟨("5").data, true⟩, ⟨("6").data, true⟩],
   fun _ => some (("0::/kubepods/besteffort/poduid1/abc").data), fun _ => none⟩

/-- Pod owning container `abc`. -/
def podAbc : Pod := ⟨7, [⟨("docker://abc").data⟩]⟩

/-- Pod whose single container status is the well-formed `docker://abc123`. -/
def pod1Abc123 : Pod := ⟨1, [⟨("docker://abc123").data⟩]⟩

/-- Pod carrying one (possibly malformed) container identifier. -/
def podOf (m : List Char) : Pod := ⟨2, [⟨m⟩]⟩

theorem splitOnChar_ne_nil (c : Char) (s : List Char) : splitOnChar c s ≠ [] := by
  cases s with
  | nil => simp [splitOnChar]
  | cons x xs =>
    simp only [splitOnChar]
    cases h : splitOnChar c xs with
    | nil => simp
    | cons p ps =>
      by_cases hx : x = c <;> simp [hx]

theorem splitOnChar_of_not_mem {c : Char} {s : List Char} (h : c ∉ s) :
    splitOnChar c s = [s] := by
  induction s with
  | nil => rfl
  | cons x xs ih =>
    have hx : x ≠ c := fun hh => h (hh ▸ List.mem_cons_self x xs)
    have hxs : c ∉ xs := fun hh => h (List.mem_cons_of_mem x hh)
    simp only [splitOnChar, ih hxs]
    simp [hx]

theorem splitOnChar_of_mem {c : Char} {s : List Char} (h : c ∈ s) :
    ∃ p ps, splitOnChar c s = p :: ps ∧ ps ≠ [] := by
  induction s with
  | nil => cases h
  | cons x xs ih =>
    by_cases hx : x = c
    · subst hx
      simp only [splitOnChar]
      cases hsp : splitOnChar x xs with
      | nil => exact absurd hsp (splitOnChar_ne_nil x xs)
      | cons p ps => exact ⟨[], p :: ps, by simp, by simp⟩
    · have hxs : c ∈ xs := by
        rcases List.mem_cons.mp h with h1 | h1
        · exact absurd h1.symm hx
        · exact h1
      rcases ih hxs with ⟨p, ps, hsp, hps⟩
      refine ⟨x :: p, ps, ?_, hps⟩
      simp only [splitOnChar, hsp]
      simp [hx]

theorem lastPart_nil (c : Char) : lastPart c [] = [] := rfl

theorem lastPart_of_not_mem {c : Char} {s : List Char} (h : c ∉ s) :
    lastPart c s = s := by
  simp [lastPart, splitOnChar_of_not_mem h]

theorem lastPart_cons_sep (c : Char) (xs : List Char) :
    lastPart c (c :: xs) = lastPart c xs := by
  unfold lastPart
  simp only [splitOnChar]
  cases hsp : splitOnChar c xs with
  | nil => exact absurd hsp (splitOnChar_ne_nil c xs)
  | cons p ps => simp [List.getLastD_cons]

theorem lastPart_cons_of_mem {c x : Char} (hx : x ≠ c) {xs : List Char} (h : c ∈ xs) :
    lastPart c (x :: xs) = lastPart c xs := by
  rcases splitOnChar_of_mem h with ⟨p, ps, hsp, hps⟩
  unfold lastPart
  simp only [splitOnChar, hsp]
  simp only [if_neg hx]
  cases ps with
  | nil => exact absurd rfl hps
  | cons q qs => simp [List.getLastD_cons]

theorem lastPart_cons_of_not_mem {c x : Char} (hx : x ≠ c) {xs : List Char} (h : c ∉ xs) :
    lastPart c (x :: xs) = x :: xs := by
  unfold lastPart
  simp only [splitOnChar, splitOnChar_of_not_mem h]
  simp [hx]

/-- The suffix after the last separator: appending `c :: t` with `c ∉ t` pins it to `t`. -/
theorem lastPart_append_sep {c : Char} {t : List Char} (h : c ∉ t) (s : List Char) :
    lastPart c (s ++ c :: t) = t := by
  induction s with
  | nil =>
    simp only [List.nil_append]
    rw [lastPart_cons_sep, lastPart_of_not_mem h]
  | cons y ys ih =>
    by_cases hy : y = c
    · subst hy
      rw [List.cons_append, lastPart_cons_sep, ih]
    · have hmem : c ∈ ys ++ c :: t := List.mem_append_right _ (List.mem_cons_self c t)
      rw [List.cons_append, lastPart_cons_of_mem hy hmem, ih]

theorem not_mem_lastPart (c : Char) (s : List Char) : c ∉ lastPart c s := by
  induction s with
  | nil => simp [lastPart_nil]
  | cons x xs ih =>
    by_cases hx : x = c
    · subst hx; rw [lastPart_cons_sep]; exact ih
    · by_cases hmem : c ∈ xs
      · rw [lastPart_cons_of_mem hx hmem]; exact ih
      · rw [lastPart_cons_of_not_mem hx hmem]
        intro hcon
        rcases List.mem_cons.mp hcon with h1 | h1
        · exact hx h1.symm
        · exact hmem h1

theorem mem_of_mem_lastPart {a c : Char} {s : List Char} (h : a ∈ lastPart c s) : a ∈ s := by
  induction s with
  | nil => simp [lastPart_nil] at h
  | cons x xs ih =>
    by_cases hx : x = c
    · subst hx
      rw [lastPart_cons_sep] at h
      exact List.mem_cons_of_mem _ (ih h)
    · by_cases hmem : c ∈ xs
      · rw [lastPart_cons_of_mem hx hmem] at h
        exact List.mem_cons_of_mem _ (ih h)
      · rwa [lastPart_cons_of_not_mem hx hmem] at h

/-- Decompose a list at the last occurrence of `c`. -/
theorem exists_split_at_last {c : Char} {s : List Char} (h : c ∈ s) :
    ∃ a b, s = a ++ c :: b ∧ c ∉ b := by
  induction s with
  | nil => cases h
  | cons x xs ih =>
    by_cases hmem : c ∈ xs
    · rcases ih hmem with ⟨a, b, rfl, hb⟩
      exact ⟨x :: a, b, rfl, hb⟩
    · have hx : x = c := by
        rcases List.mem_cons.mp h with h1 | h1
        · exact h1.symm
        · exact absurd h1 hmem
      exact ⟨[], xs, by rw [hx]; rfl, hmem⟩

theorem containsC_eq_true_iff {c : Char} {s : List Char} : containsC c s = true ↔ c ∈ s := by
  simp only [containsC, List.any_eq_true, beq_iff_eq]
  constructor
  · rintro ⟨x, hx, rfl⟩; exact hx
  · intro h; exact ⟨c, h, rfl⟩

theorem containsC_eq_false_iff {c : Char} {s : List Char} : containsC c s = false ↔ c ∉ s := by
  rw [← Bool.not_eq_true, not_iff_not]
  exact containsC_eq_true_iff

theorem dropWhile_all_false {p : Char → Bool} {s : List Char}
    (h : ∀ c ∈ s, p c = false) : s.dropWhile p = s := by
  cases s with
  | nil => rfl
  | cons x xs =>
    rw [List.dropWhile_cons_of_neg]
    simp [h x (List.mem_cons_self x xs)]

theorem trimSpace_of_no_space {s : List Char}
    (h : ∀ c ∈ s, isSpaceGo c = false) : trimSpace s = s := by
  unfold trimSpace
  rw [dropWhile_all_false h, dropWhile_all_false, List.reverse_reverse]
  intro c hc
  exact h c (List.mem_reverse.mp hc)

theorem startsWithL_append (pat rest : List Char) : startsWithL (pat ++ rest) pat = true := by
  induction pat with
  | nil =>
    simp only [List.nil_append]
    cases rest <;> rfl
  | cons x xs ih => simp [startsWithL, ih]

theorem endsWithL_append (a pat : List Char) : endsWithL (a ++ pat) pat = true := by
  unfold endsWithL
  rw [List.reverse_append]
  exact startsWithL_append _ _

theorem trimSuffix_append (a pat : List Char) : trimSuffix (a ++ pat) pat = a := by
  unfold trimSuffix
  rw [if_pos (endsWithL_append a pat)]
  rw [List.length_append, Nat.add_sub_cancel]
  exact List.take_left a pat

theorem containsSubstr_cons_of (x : Char) {xs pat : List Char}
    (h : containsSubstr xs pat = true) : containsSubstr (x :: xs) pat = true := by
  simp [containsSubstr, h]

theorem containsSubstr_left (pat rest : List Char) (hp : pat ≠ []) :
    containsSubstr (pat ++ rest) pat = true := by
  cases hc : pat ++ rest with
  | nil =>
    cases pat with
    | nil => exact absurd rfl hp
    | cons y ys => simp at hc
  | cons z zs =>
    simp only [containsSubstr]
    rw [← hc, startsWithL_append]
    simp

theorem extAux_walk {t : List Char} (hd : ∀ c ∈ t, c ≠ '.' ∧ c ≠ '/') :
    ∀ (acc r : List Char), extAux acc (t ++ '.' :: r) = '.' :: (t.reverse ++ acc) := by
  induction t with
  | nil => intro acc r; simp [extAux]
  | cons c t ih =>
    intro acc r
    have hc := hd c (List.mem_cons_self c t)
    simp only [List.cons_append, extAux, if_neg hc.2, if_neg hc.1, List.append_eq]
    rw [ih (fun x hx => hd x (List.mem_cons_of_mem c hx)) (c :: acc) r]
    simp

/-- `filepath.Ext (stem ++ "." ++ suffix) = "." ++ suffix` when the suffix has
    no dot and no slash. -/
theorem filepathExt_append {suffix : List Char}
    (hd : ∀ c ∈ suffix, c ≠ '.' ∧ c ≠ '/') (stem : List Char) :
    filepathExt (stem ++ '.' :: suffix) = '.' :: suffix := by
  unfold filepathExt
  rw [List.reverse_append, List.reverse_cons]
  have hrev : ∀ c ∈ suffix.reverse, c ≠ '.' ∧ c ≠ '/' :=
    fun c hc => hd c (List.mem_reverse.mp hc)
  rw [List.append_assoc, List.singleton_append,
    extAux_walk hrev [] stem.reverse]
  simp

theorem splitOnChar_append_sep {c : Char} {l : List Char} (h : c ∉ l) (t : List Char) :
    splitOnChar c (l ++ c :: t) = l :: splitOnChar c t := by
  induction l with
  | nil =>
    simp only [List.nil_append, splitOnChar]
    cases hsp : splitOnChar c t with
    | nil => exact absurd hsp (splitOnChar_ne_nil c t)
    | cons p ps => simp
  | cons x xs ih =>
    have hx : x ≠ c := fun hh => h (hh ▸ List.mem_cons_self x xs)
    have hxs : c ∉ xs := fun hh => h (List.mem_cons_of_mem x hh)
    simp only [List.cons_append, splitOnChar, List.append_eq, ih hxs]
    simp [hx]

theorem splitOnChar_intercalate {c : Char} {lines : List (List Char)}
    (hne : lines ≠ []) (h : ∀ l ∈ lines, c ∉ l) :
    splitOnChar c (intercalateChar c lines) = lines := by
  induction lines with
  | nil => exact absurd rfl hne
  | cons l ls ih =>
    cases ls with
    | nil =>
      simp only [intercalateChar]
      exact splitOnChar_of_not_mem (h l (List.mem_cons_self l []))
    | cons l2 ls2 =>
      have hstep : intercalateChar c (l :: l2 :: ls2) = l ++ c :: intercalateChar c (l2 :: ls2) := rfl
      rw [hstep, splitOnChar_append_sep (h l (List.mem_cons_self l _))]
      rw [ih (by simp) (fun x hx => h x (List.mem_cons_of_mem l hx))]

theorem find?_append_first {α : Type} {p : α → Bool} {pre : List α} {L : α}
    (hpre : ∀ l ∈ pre, p l = false) (hL : p L = true) (post : List α) :
    (pre ++ L :: post).find? p = some L := by
  induction pre with
  | nil => simp [List.find?_cons, hL]
  | cons x xs ih =>
    rw [List.cons_append, List.find?_cons,
      hpre x (List.mem_cons_self x xs)]
    exact ih (fun l hl => hpre l (List.mem_cons_of_mem x hl))

theorem isSpaceGo_false_of_alphaNum {c : Char} (h : isAlphaNumC c = true) :
    isSpaceGo c = false := by
  simp only [isSpaceGo, Bool.or_eq_false_iff, decide_eq_false_iff_not]
  refine ⟨⟨⟨⟨⟨?_, ?_⟩, ?_⟩, ?_⟩, ?_⟩, ?_⟩ <;>
    (intro hcon; subst hcon; exact absurd h (by decide))

theorem not_mem_of_all_alphaNum {s : List Char} (h : s.all isAlphaNumC = true)
    {c : Char} (hc : isAlphaNumC c = false) : c ∉ s := by
  intro hmem
  have := List.all_eq_true.mp h c hmem
  rw [this] at hc
  cases hc

theorem not_mem_of_all_alphaNumDash {s : List Char}
    (h : s.all (fun c => isAlphaNumC c || c == '-') = true)
    {c : Char} (hc : (isAlphaNumC c || c == '-') = false) : c ∉ s := by
  intro hmem
  have := List.all_eq_true.mp h c hmem
  rw [this] at hc
  cases hc

/-- Stripping trailing slashes does nothing when the last character is not a slash. -/
theorem revDropSlash_eq_self {s : List Char} {t : List Char} {a : Char}
    (hs : s = t ++ [a]) (ha : a ≠ '/') :
    (s.reverse.dropWhile (fun c => c = '/')).reverse = s := by
  subst hs
  rw [List.reverse_append, List.reverse_singleton, List.singleton_append,
    List.dropWhile_cons_of_neg (by simpa using ha)]
  simp

theorem pathBase_append_slash {id : List Char} (hne : id ≠ [])
    (hnoslash : '/' ∉ id) (w : List Char) :
    pathBase (w ++ '/' :: id) = id := by
  obtain ⟨t, a, hca⟩ := (List.eq_nil_or_concat id).resolve_left hne
  have hs : id = t ++ [a] := by rw [hca, List.concat_eq_append]
  have ha : a ≠ '/' := by
    intro hcon
    exact hnoslash (by rw [hs, hcon]; exact List.mem_append_right t (by simp))
  have hs2 : w ++ '/' :: id = (w ++ '/' :: t) ++ [a] := by rw [hs]; simp
  simp only [pathBase]
  rw [if_neg (by simp), revDropSlash_eq_self hs2 ha, lastPart_append_sep hnoslash,
    if_neg hne]

theorem pathBase_no_slash {s : List Char} (hne : s ≠ []) (hnoslash : '/' ∉ s) :
    pathBase s = s := by
  obtain ⟨t, a, hca⟩ := (List.eq_nil_or_concat s).resolve_left hne
  have hs : s = t ++ [a] := by rw [hca, List.concat_eq_append]
  have ha : a ≠ '/' := by
    intro hcon
    exact hnoslash (by rw [hs, hcon]; exact List.mem_append_right t (by simp))
  simp only [pathBase]
  rw [if_neg hne, revDropSlash_eq_self hs ha, lastPart_of_not_mem hnoslash, if_neg hne]

theorem afterFirst_append {c : Char} {x : List Char} (hx : c ∉ x) (r : List Char) :
    afterFirst c (x ++ c :: r) = r := by
  induction x with
  | nil => simp [afterFirst]
  | cons y ys ih =>
    have hy : y ≠ c := fun hh => hx (hh ▸ List.mem_cons_self y ys)
    simp only [List.cons_append, afterFirst, if_neg hy]
    exact ih (fun hh => hx (List.mem_cons_of_mem y hh))

/-- On a path of the form `w ++ "/" ++ id` with `id` a nonempty alphanumeric
    identifier, `normalizeCgroup` returns `id` unchanged, whatever `w` is. -/
theorem normalizeCgroup_slash_id {id : List Char} (hne : id ≠ [])
    (hid : id.all isAlphaNumC = true) (w : List Char) :
    normalizeCgroup (w ++ '/' :: id) = id := by
  have hnoslash : '/' ∉ id := not_mem_of_all_alphaNum hid (by decide)
  have hnodash : '-' ∉ id := not_mem_of_all_alphaNum hid (by decide)
  have hnodot : '.' ∉ id := not_mem_of_all_alphaNum hid (by decide)
  have h1 : containsC '-' id = false := containsC_eq_false_iff.mpr hnodash
  have h2 : containsC '.' id = false := containsC_eq_false_iff.mpr hnodot
  simp only [normalizeCgroup]
  rw [pathBase_append_slash hne hnoslash w,
    trimSpace_of_no_space (fun c hc => isSpaceGo_false_of_alphaNum (List.all_eq_true.mp hid c hc))]
  simp [h1, h2]

/-- On a slash-free basename `id ++ ".scope"` with `id` alphanumeric,
    `normalizeCgroup` strips the `.scope` suffix and returns `id`. -/
theorem normalizeCgroup_id_scope {id : List Char}
    (hid : id.all isAlphaNumC = true) :
    normalizeCgroup (id ++ (".scope").data) = id := by
  have hsc : (".scope").data = '.' :: ("scope").data := rfl
  have hnoslash : '/' ∉ id ++ (".scope").data := by
    intro hmem
    rcases List.mem_append.mp hmem with h1 | h1
    · exact not_mem_of_all_alphaNum hid (by decide) h1
    · revert h1; decide
  have hnodash : '-' ∉ id ++ (".scope").data := by
    intro hmem
    rcases List.mem_append.mp hmem with h1 | h1
    · exact not_mem_of_all_alphaNum hid (by decide) h1
    · revert h1; decide
  have hlit : ∀ c ∈ (".scope").data, isSpaceGo c = false := by decide
  have hnospace : ∀ c ∈ id ++ (".scope").data, isSpaceGo c = false := by
    intro c hc
    rcases List.mem_append.mp hc with h1 | h1
    · exact isSpaceGo_false_of_alphaNum (List.all_eq_true.mp hid c h1)
    · exact hlit c h1
  have h1 : containsC '-' (id ++ (".scope").data) = false :=
    containsC_eq_false_iff.mpr hnodash
  have h2 : containsC '.' (id ++ (".scope").data) = true := by
    rw [containsC_eq_true_iff]
    exact List.mem_append_right id (by decide)
  simp only [normalizeCgroup]
  rw [pathBase_no_slash (by simp) hnoslash, trimSpace_of_no_space hnospace, h1]
  simp only [Bool.false_eq_true, if_false]
  rw [h2]
  simp only [if_true]
  have hsc2 : (['.', 's', 'c', 'o', 'p', 'e'] : List Char) = '.' :: ['s', 'c', 'o', 'p', 'e'] := rfl
  rw [hsc2, filepathExt_append (by decide) id, trimSuffix_append]

theorem notMemAppend {a : Char} {s t : List Char} (hs : a ∉ s) (ht : a ∉ t) :
    a ∉ s ++ t := by
  intro h
  rcases List.mem_append.mp h with h1 | h1
  · exact hs h1
  · exact ht h1

theorem notMemCons {a b : Char} (hab : a ≠ b) {t : List Char} (ht : a ∉ t) :
    a ∉ b :: t := by
  intro h
  rcases List.mem_cons.mp h with h1 | h1
  · exact hab h1
  · exact ht h1

/-- The dash-splitting step of `getProcessCgroup` followed by `normalizeCgroup`,
    on any cgroup path whose final segment is a nonempty alphanumeric `id`:
    the result is nonempty and normalizes to `id`. -/
theorem dash_then_norm {id : List Char} (hne : id ≠ [])
    (hid : id.all isAlphaNumC = true) (w : List Char) :
    (if containsC '-' (w ++ '/' :: id) = true
      then lastPart '-' (w ++ '/' :: id) else w ++ '/' :: id) ≠ [] ∧
    normalizeCgroup
      (if containsC '-' (w ++ '/' :: id) = true
        then lastPart '-' (w ++ '/' :: id) else w ++ '/' :: id) = id := by
  have hdashid : '-' ∉ '/' :: id :=
    notMemCons (by decide) (not_mem_of_all_alphaNum hid (by decide))
  by_cases hd : '-' ∈ w
  · obtain ⟨a, b, hw, hb⟩ := exists_split_at_last hd
    have hcond : containsC '-' (w ++ '/' :: id) = true := by
      rw [containsC_eq_true_iff]
      exact List.mem_append_left _ hd
    have hdecomp : w ++ '/' :: id = a ++ '-' :: (b ++ '/' :: id) := by
      rw [hw]; simp
    have hnotail : '-' ∉ b ++ '/' :: id := notMemAppend hb hdashid
    rw [hcond, if_pos rfl, hdecomp, lastPart_append_sep hnotail]
    exact ⟨by simp, normalizeCgroup_slash_id hne hid b⟩
  · have hcond : containsC '-' (w ++ '/' :: id) = false := by
      rw [containsC_eq_false_iff]
      exact notMemAppend hd hdashid
    rw [hcond]
    simp only [Bool.false_eq_true, if_false]
    exact ⟨by simp, normalizeCgroup_slash_id hne hid w⟩

/-- `getProcessCgroup`'s pure pipeline on single-line (cgroup v2) content
    `"0::/kubepods/besteffort/pod<uid>/<id>"` yields exactly `<id>`. -/
theorem getCgroup_v2_shape {id uid : List Char} (hne : id ≠ [])
    (hid : id.all isAlphaNumC = true)
    (huid : uid.all (fun c => isAlphaNumC c || c == '-') = true) :
    getProcessCgroupOfContent (("0::/kubepods/besteffort/pod").data ++ uid ++ '/' :: id)
      = some id := by
  have hidnl : '\n' ∉ id := not_mem_of_all_alphaNum hid (by decide)
  have huidnl : '\n' ∉ uid := not_mem_of_all_alphaNumDash huid (by decide)
  have hlitnl : '\n' ∉ ("0::/kubepods/besteffort/pod").data := by decide
  have hnl : '\n' ∉ ("0::/kubepods/besteffort/pod").data ++ uid ++ '/' :: id :=
    notMemAppend (notMemAppend hlitnl huidnl) (notMemCons (by decide) hidnl)
  have hcontent : ("0::/kubepods/besteffort/pod").data ++ uid ++ '/' :: id
      = ['0', ':'] ++ ':' :: ((("/kubepods/besteffort/pod").data ++ uid) ++ '/' :: id) := by
    have hlit : ("0::/kubepods/besteffort/pod").data
        = ['0', ':'] ++ ':' :: ("/kubepods/besteffort/pod").data := rfl
    rw [hlit]
    simp [List.append_assoc]
  have hnocolon : ':' ∉ (("/kubepods/besteffort/pod").data ++ uid) ++ '/' :: id := by
    refine notMemAppend (notMemAppend ?_ ?_) (notMemCons (by decide) ?_)
    · decide
    · exact not_mem_of_all_alphaNumDash huid (by decide)
    · exact not_mem_of_all_alphaNum hid (by decide)
  have hex : extractCgroup [("0::/kubepods/besteffort/pod").data ++ uid ++ '/' :: id]
      = (("/kubepods/besteffort/pod").data ++ uid) ++ '/' :: id := by
    simp only [extractCgroup, List.length_singleton, if_pos rfl, List.headD_cons]
    rw [hcontent, lastPart_append_sep hnocolon]
    simp
  have hq := dash_then_norm hne hid (("/kubepods/besteffort/pod").data ++ uid)
  simp only [getProcessCgroupOfContent, splitOnChar_of_not_mem hnl, hex]
  rw [if_neg hq.1, hq.2]

/-- `getProcessCgroup`'s pure pipeline on multi-line (cgroup v1) content whose
    `pids`-controller line is `"5:pids:/docker/<id>"`, surrounded by unrelated
    controller lines, yields exactly `<id>`. -/
theorem getCgroup_v1_pids_shape {id : List Char} (pre post : List (List Char))
    (hne : id ≠ []) (hid : id.all isAlphaNumC = true)
    (hpre : ∀ l ∈ pre, containsSubstr l pidsToken = false)
    (hprenl : ∀ l ∈ pre, '\n' ∉ l) (hpostnl : ∀ l ∈ post, '\n' ∉ l)
    (hmulti : pre ≠ [] ∨ post ≠ []) :
    getProcessCgroupOfContent
      (intercalateChar '\n' (pre ++ ((("5:pids:/docker/").data ++ id) :: post)))
      = some id := by
  have hidnl : '\n' ∉ id := not_mem_of_all_alphaNum hid (by decide)
  have hlinenl : '\n' ∉ ("5:pids:/docker/").data ++ id :=
    notMemAppend (by decide) hidnl
  have hallnl : ∀ l ∈ pre ++ ((("5:pids:/docker/").data ++ id) :: post), '\n' ∉ l := by
    intro l hl
    rcases List.mem_append.mp hl with h1 | h1
    · exact hprenl l h1
    · rcases List.mem_cons.mp h1 with h2 | h2
      · rw [h2]; exact hlinenl
      · exact hpostnl l h2
  have hlinesne : pre ++ ((("5:pids:/docker/").data ++ id) :: post) ≠ [] := by simp
  have hsplit := splitOnChar_intercalate hlinesne hallnl
  have hlen : (pre ++ ((("5:pids:/docker/").data ++ id) :: post)).length ≠ 1 := by
    rcases hmulti with h | h
    · have := List.length_pos.mpr h
      simp only [List.length_append, List.length_cons]
      omega
    · have := List.length_pos.mpr h
      simp only [List.length_append, List.length_cons]
      omega
  have hfound : containsSubstr (("5:pids:/docker/").data ++ id) pidsToken = true := by
    have hdec : ("5:pids:/docker/").data ++ id
        = '5' :: (pidsToken ++ (("/docker/").data ++ id)) := by
      have h0 : ("5:pids:/docker/").data = '5' :: (pidsToken ++ ("/docker/").data) := rfl
      rw [h0]
      simp [List.append_assoc]
    rw [hdec]
    exact containsSubstr_cons_of '5' (containsSubstr_left pidsToken _ (by decide))
  have hnocolon : ':' ∉ ("/docker/").data ++ id :=
    notMemAppend (by decide) (not_mem_of_all_alphaNum hid (by decide))
  have hlineform : ("5:pids:/docker/").data ++ id
      = ("5:pids").data ++ ':' :: (("/docker/").data ++ id) := by
    have h0 : ("5:pids:/docker/").data = ("5:pids").data ++ ':' :: ("/docker/").data := rfl
    rw [h0]
    simp [List.append_assoc]
  have hdockerform : ("/docker/").data ++ id = ("/docker").data ++ '/' :: id := rfl
  have hex : extractCgroup (pre ++ ((("5:pids:/docker/").data ++ id) :: post))
      = ("/docker").data ++ '/' :: id := by
    simp only [extractCgroup, if_neg hlen,
      find?_append_first hpre hfound post]
    rw [hlineform, lastPart_append_sep hnocolon, hdockerform]
  have hq := dash_then_norm hne hid (("/docker").data)
  simp only [getProcessCgroupOfContent, hsplit, hex]
  rw [if_neg hq.1, hq.2]

/-- `getProcessCgroup`'s pure pipeline on single-line systemd-driver content
    ending in `/kubepods-burstable-pod<uid>.slice/docker-<id>.scope` yields
    exactly `<id>`. -/
theorem getCgroup_systemd_shape {id uid : List Char}
    (hid : id.all isAlphaNumC = true)
    (huid : uid.all (fun c => isAlphaNumC c || c == '-') = true) :
    getProcessCgroupOfContent
      (("0::/kubepods.slice/kubepods-burstable.slice/kubepods-burstable-pod").data
        ++ uid ++ (".slice/docker-").data ++ id ++ (".scope").data) = some id := by
  have hidnl : '\n' ∉ id := not_mem_of_all_alphaNum hid (by decide)
  have huidnl : '\n' ∉ uid := not_mem_of_all_alphaNumDash huid (by decide)
  have hnl : '\n' ∉ ("0::/kubepods.slice/kubepods-burstable.slice/kubepods-burstable-pod").data
      ++ uid ++ (".slice/docker-").data ++ id ++ (".scope").data :=
    notMemAppend (notMemAppend (notMemAppend (notMemAppend (by decide) huidnl)
      (by decide)) hidnl) (by decide)
  have hnocolon : ':' ∉ ("/kubepods.slice/kubepods-burstable.slice/kubepods-burstable-pod").data
      ++ uid ++ (".slice/docker-").data ++ id ++ (".scope").data :=
    notMemAppend (notMemAppend (notMemAppend (notMemAppend (by decide)
      (not_mem_of_all_alphaNumDash huid (by decide)))
      (by decide)) (not_mem_of_all_alphaNum hid (by decide))) (by decide)
  have hcontent : ("0::/kubepods.slice/kubepods-burstable.slice/kubepods-burstable-pod").data
      ++ uid ++ (".slice/docker-").data ++ id ++ (".scope").data
      = ['0', ':'] ++ ':' ::
        (("/kubepods.slice/kubepods-burstable.slice/kubepods-burstable-pod").data
          ++ uid ++ (".slice/docker-").data ++ id ++ (".scope").data) := by
    have h0 : ("0::/kubepods.slice/kubepods-burstable.slice/kubepods-burstable-pod").data
        = ['0', ':'] ++ ':' ::
          ("/kubepods.slice/kubepods-burstable.slice/kubepods-burstable-pod").data := rfl
    rw [h0]
    simp [List.append_assoc]
  have hex : extractCgroup
      [("0::/kubepods.slice/kubepods-burstable.slice/kubepods-burstable-pod").data
        ++ uid ++ (".slice/docker-").data ++ id ++ (".scope").data]
      = ("/kubepods.slice/kubepods-burstable.slice/kubepods-burstable-pod").data
        ++ uid ++ (".slice/docker-").data ++ id ++ (".scope").data := by
    simp only [extractCgroup, List.length_singleton, if_pos rfl, List.headD_cons]
    rw [hcontent, lastPart_append_sep hnocolon]
    simp
  have hnodashtail : '-' ∉ id ++ (".scope").data :=
    notMemAppend (not_mem_of_all_alphaNum hid (by decide)) (by decide)
  have hPdash : ("/kubepods.slice/kubepods-burstable.slice/kubepods-burstable-pod").data
      ++ uid ++ (".slice/docker-").data ++ id ++ (".scope").data
      = (("/kubepods.slice/kubepods-burstable.slice/kubepods-burstable-pod").data
          ++ uid ++ (".slice/docker").data) ++ '-' :: (id ++ (".scope").data) := by
    have h0 : (".slice/docker-").data = (".slice/docker").data ++ ['-'] := rfl
    rw [h0]
    simp [List.append_assoc]
  have hcond : containsC '-'
      (("/kubepods.slice/kubepods-burstable.slice/kubepods-burstable-pod").data
        ++ uid ++ (".slice/docker-").data ++ id ++ (".scope").data) = true := by
    rw [hPdash, containsC_eq_true_iff]
    exact List.mem_append_right _ (List.mem_cons_self _ _)
  simp only [getProcessCgroupOfContent, splitOnChar_of_not_mem hnl, hex]
  rw [hcond, if_pos rfl, hPdash, lastPart_append_sep hnodashtail,
    if_neg (by simp), normalizeCgroup_id_scope hid]

theorem mem_trimSpace_sub {a : Char} {s : List Char} (h : a ∈ trimSpace s) : a ∈ s := by
  unfold trimSpace at h
  rw [List.mem_reverse] at h
  have h2 := (List.dropWhile_sublist isSpaceGo).subset h
  rw [List.mem_reverse] at h2
  exact (List.dropWhile_sublist isSpaceGo).subset h2

theorem mem_pathBase_sub {a : Char} {s : List Char} (h : a ∈ pathBase s) :
    a ∈ s ∨ a = '.' ∨ a = '/' := by
  simp only [pathBase] at h
  by_cases hs : s = []
  · rw [if_pos hs] at h
    right; left
    rcases List.mem_cons.mp h with h1 | h1
    · exact h1
    · cases h1
  · rw [if_neg hs] at h
    by_cases h2 : lastPart '/' ((s.reverse.dropWhile (fun c => c = '/')).reverse) = []
    · rw [if_pos h2] at h
      right; right
      rcases List.mem_cons.mp h with h1 | h1
      · exact h1
      · cases h1
    · rw [if_neg h2] at h
      left
      have h3 := mem_of_mem_lastPart h
      rw [List.mem_reverse] at h3
      have h4 := (List.dropWhile_sublist (fun c => decide (c = '/'))).subset h3
      rwa [List.mem_reverse] at h4

theorem mem_trimSuffix_sub {a : Char} {s t : List Char} (h : a ∈ trimSuffix s t) : a ∈ s := by
  unfold trimSuffix at h
  by_cases he : endsWithL s t = true
  · rw [if_pos he] at h
    exact List.take_subset _ s h
  · rwa [if_neg he] at h

/-- `normalizeCgroup` introduces no dash: its dash-stripping branch can only
    remove characters, and basename/suffix handling only keeps sublists
    (plus the dash-free special results `"."` and `"/"`). -/
theorem normalizeCgroup_no_dash {q : List Char} (hq : '-' ∉ q) :
    '-' ∉ normalizeCgroup q := by
  have hb : '-' ∉ trimSpace (pathBase q) := by
    intro h
    rcases mem_pathBase_sub (mem_trimSpace_sub h) with h1 | h1 | h1
    · exact hq h1
    · cases h1
    · cases h1
  simp only [normalizeCgroup, containsC_eq_false_iff.mpr hb, Bool.false_eq_true, if_false]
  by_cases hdot : containsC '.' (trimSpace (pathBase q)) = true
  · rw [if_pos hdot]
    intro h
    exact hb (mem_trimSuffix_sub h)
  · rw [if_neg hdot]
    exact hb

theorem takeWhile_eq_self {p : Char → Bool} {s : List Char} (h : ∀ c ∈ s, p c = true) :
    s.takeWhile p = s := by
  induction s with
  | nil => rfl
  | cons x xs ih =>
    rw [List.takeWhile_cons_of_pos (h x (List.mem_cons_self x xs)),
      ih (fun c hc => h c (List.mem_cons_of_mem x hc))]

theorem any_eq_false_of {p : Char → Bool} {s : List Char} (h : ∀ c ∈ s, p c = false) :
    s.any p = false := by
  induction s with
  | nil => rfl
  | cons x xs ih =>
    simp [List.any_cons, h x (List.mem_cons_self x xs),
      ih (fun c hc => h c (List.mem_cons_of_mem x hc))]

theorem ne_of_alphaNum {a b : Char} (ha : isAlphaNumC a = true)
    (hb : isAlphaNumC b = false) : a ≠ b := by
  intro h
  rw [h] at ha
  rw [ha] at hb
  cases hb

theorem charLe_toNat {a b : Char} (h : a ≤ b) : a.toNat ≤ b.toNat := by
  rw [Char.le_def, UInt32.le_def] at h
  exact h

theorem isCtl_false_of_alphaNum {c : Char} (h : isAlphaNumC c = true) : isCtl c = false := by
  have hn : 48 ≤ c.toNat ∧ c.toNat ≤ 122 := by
    rcases Bool.or_eq_true _ _ |>.mp h with h1 | h1
    · rcases Bool.or_eq_true _ _ |>.mp h1 with h2 | h2
      · rcases Bool.and_eq_true _ _ |>.mp h2 with ⟨hl, hr⟩
        have hl' := charLe_toNat (of_decide_eq_true hl)
        have hr' := charLe_toNat (of_decide_eq_true hr)
        have e1 : ('a' : Char).toNat = 97 := rfl
        have e2 : ('z' : Char).toNat = 122 := rfl
        rw [e1] at hl'
        rw [e2] at hr'
        omega
      · rcases Bool.and_eq_true _ _ |>.mp h2 with ⟨hl, hr⟩
        have hl' := charLe_toNat (of_decide_eq_true hl)
        have hr' := charLe_toNat (of_decide_eq_true hr)
        have e1 : ('A' : Char).toNat = 65 := rfl
        have e2 : ('Z' : Char).toNat = 90 := rfl
        rw [e1] at hl'
        rw [e2] at hr'
        omega
    · rcases Bool.and_eq_true _ _ |>.mp h1 with ⟨hl, hr⟩
      have hl' := charLe_toNat (of_decide_eq_true hl)
      have hr' := charLe_toNat (of_decide_eq_true hr)
      have e1 : ('0' : Char).toNat = 48 := rfl
      have e2 : ('9' : Char).toNat = 57 := rfl
      rw [e1] at hl'
      rw [e2] at hr'
      omega
  simp only [isCtl, Bool.or_eq_false_iff, decide_eq_false_iff_not]
  omega

theorem startsWithL_nilPat (s : List Char) : startsWithL s [] = true := by
  cases s <;> rfl

theorem startsWithL_single_false {c : Char} {s : List Char} (h : ∀ x ∈ s, x ≠ c) :
    startsWithL s [c] = false := by
  cases s with
  | nil => rfl
  | cons x xs => simp [startsWithL, h x (List.mem_cons_self x xs)]

theorem getSchemeCont_all_alpha {rest : List Char} (h : rest.all isAlphaC = true) :
    ∀ acc orig, getSchemeCont acc orig rest = some ([], orig) := by
  induction rest with
  | nil => intro acc orig; rfl
  | cons c cs ih =>
    intro acc orig
    have hc : isAlphaC c = true := List.all_eq_true.mp h c (List.mem_cons_self c cs)
    have hcolon : ¬ (c = ':') := by
      intro hcon
      rw [hcon] at hc
      exact absurd hc (by decide)
    simp only [getSchemeCont, if_neg hcolon, hc, Bool.true_or, if_pos]
    exact ih (List.all_eq_true.mpr
      (fun x hx => List.all_eq_true.mp h x (List.mem_cons_of_mem c hx))) _ _

theorem urlParse_all_alpha {m : List Char} (h : m.all isAlphaC = true) :
    urlParse m = some ⟨[], []⟩ := by
  have hnum : ∀ c ∈ m, isAlphaNumC c = true := by
    intro c hc
    have := List.all_eq_true.mp h c hc
    simp [isAlphaNumC, this]
  have hfrag : m.takeWhile (fun c => decide (c ≠ '#')) = m :=
    takeWhile_eq_self (fun c hc => by
      simp only [decide_eq_true_eq]
      exact ne_of_alphaNum (hnum c hc) (by decide))
  have hctl : m.any isCtl = false :=
    any_eq_false_of (fun c hc => isCtl_false_of_alphaNum (hnum c hc))
  cases m with
  | nil => decide
  | cons c cs =>
    have hca : isAlphaC c = true := List.all_eq_true.mp h c (List.mem_cons_self c cs)
    have hcs : cs.all isAlphaC = true := List.all_eq_true.mpr
      (fun x hx => List.all_eq_true.mp h x (List.mem_cons_of_mem c hx))
    have hq : (c :: cs).takeWhile (fun c => decide (c ≠ '?')) = c :: cs :=
      takeWhile_eq_self (fun x hx => by
        simp only [decide_eq_true_eq]
        exact ne_of_alphaNum (hnum x hx) (by decide))
    have hslash : startsWithL (c :: cs) ['/'] = false :=
      startsWithL_single_false (fun x hx =>
        ne_of_alphaNum (hnum x hx) (by decide))
    have hsl2 : (c :: cs).takeWhile (fun c => decide (c ≠ '/')) = c :: cs :=
      takeWhile_eq_self (fun x hx => by
        simp only [decide_eq_true_eq]
        exact ne_of_alphaNum (hnum x hx) (by decide))
    have hnocolon : containsC ':' (c :: cs) = false :=
      containsC_eq_false_iff.mpr (fun hmem =>
        (ne_of_alphaNum (hnum ':' hmem) (by decide)) rfl)
    simp only [urlParse, hfrag, hctl, Bool.false_eq_true, if_false, getScheme,
      if_pos hca, getSchemeCont_all_alpha hcs, hq, hslash, Bool.not_false,
      List.isEmpty_nil, Bool.not_true, if_false, hsl2, hnocolon, if_true]

theorem urlParse_docker_host {id : List Char} (hid : id.all isAlphaNumC = true) :
    urlParse (("docker://").data ++ id) = some ⟨("docker").data, id⟩ := by
  have hnum : ∀ c ∈ id, isAlphaNumC c = true := fun c hc => List.all_eq_true.mp hid c hc
  have hfrag : (("docker://").data ++ id).takeWhile (fun c => decide (c ≠ '#'))
      = ("docker://").data ++ id := by
    refine takeWhile_eq_self ?_
    have hlit : ∀ c ∈ ("docker://").data, decide (c ≠ '#') = true := by decide
    intro c hc
    rcases List.mem_append.mp hc with h1 | h1
    · exact hlit c h1
    · simp only [decide_eq_true_eq]
      exact ne_of_alphaNum (hnum c h1) (by decide)
  have hctl : (("docker://").data ++ id).any isCtl = false := by
    have hlit : ∀ c ∈ ("docker://").data, isCtl c = false := by decide
    refine any_eq_false_of ?_
    intro c hc
    rcases List.mem_append.mp hc with h1 | h1
    · exact hlit c h1
    · exact isCtl_false_of_alphaNum (hnum c h1)
  have hscheme : getScheme (("docker://").data ++ id)
      = some (("docker").data, '/' :: '/' :: id) := rfl
  have hq2 : ('/' :: '/' :: id).takeWhile (fun c => decide (c ≠ '?')) = '/' :: '/' :: id := by
    refine takeWhile_eq_self ?_
    intro c hc
    rcases List.mem_cons.mp hc with rfl | hc
    · decide
    rcases List.mem_cons.mp hc with rfl | hc
    · decide
    simp only [decide_eq_true_eq]
    exact ne_of_alphaNum (hnum c hc) (by decide)
  have hsl : id.takeWhile (fun c => decide (c ≠ '/')) = id := by
    refine takeWhile_eq_self ?_
    intro c hc
    simp only [decide_eq_true_eq]
    exact ne_of_alphaNum (hnum c hc) (by decide)
  have hobrk : startsWithL id ['['] = false :=
    startsWithL_single_false (fun x hx => ne_of_alphaNum (hnum x hx) (by decide))
  have hat : containsC '@' id = false :=
    containsC_eq_false_iff.mpr (fun hmem => (ne_of_alphaNum (hnum '@' hmem) (by decide)) rfl)
  have hpct : containsC '%' id = false :=
    containsC_eq_false_iff.mpr (fun hmem => (ne_of_alphaNum (hnum '%' hmem) (by decide)) rfl)
  have hcol : containsC ':' id = false :=
    containsC_eq_false_iff.mpr (fun hmem => (ne_of_alphaNum (hnum ':' hmem) (by decide)) rfl)
  have hpa : parseAuthority id = some id := by
    simp only [parseAuthority, hat, Bool.false_eq_true, if_false, parseHost, hpct,
      hobrk, hcol]
  have hsw1 : startsWithL ('/' :: '/' :: id) ['/'] = true := rfl
  have hsw2 : startsWithL ('/' :: '/' :: id) ['/', '/'] = true := by
    simp [startsWithL, startsWithL_nilPat]
  have hde : (("docker").data).isEmpty = false := rfl
  have hdrop : ('/' :: '/' :: id).drop 2 = id := rfl
  simp only [urlParse, hfrag, hctl, Bool.false_eq_true, if_false, hscheme, hq2,
    hsw1, hsw2, Bool.not_true, hde, Bool.not_false, Bool.true_or, Bool.true_and,
    if_true, hdrop, hsl, hpa]

theorem findHost_char (entries : List DirEntry) (cgf cmdf : List Char → Option (List Char)) :
    findContainerPidsHost ⟨some entries, cgf, cmdf⟩ none
      = some (hostModeCandidates entries) := by
  simp only [findContainerPidsHost]
  suffices h : ∀ (es : List DirEntry) (acc : List Nat),
      List.foldl
        (fun result pid =>
          if (!pid.isDir) = true then result
          else
            if (!numberRegexMatch pid.name) = true then result
            else
              match atoi pid.name with
              | none => result
              | some pidNumber => result ++ [toUInt32 pidNumber])
        acc es = acc ++ hostModeCandidates es by
    rw [h entries []]
    simp
  intro es
  induction es with
  | nil =>
    intro acc
    simp [hostModeCandidates]
  | cons e es ih =>
    intro acc
    rw [List.foldl_cons, ih]
    by_cases hd : e.isDir
    · by_cases hr : numberRegexMatch e.name
      · cases hatoi : atoi e.name with
        | none => simp [hostModeCandidates, hd, hr, hatoi]
        | some n => simp [hostModeCandidates, hd, hr, hatoi, List.append_assoc]
      · simp [hostModeCandidates, hd, hr]
    · simp [hostModeCandidates, hd]

theorem updateCalls_mono (sslOk goOk : Nat → Bool) (l : List (Nat × Pod)) :
    ∀ (acc : List EngineCall) (x : EngineCall), x ∈ acc →
      x ∈ l.foldl (fun calls e =>
        calls ++ [EngineCall.addSSLLibPid e.1 (sslOk e.1),
                  EngineCall.addGoPid e.1 (goOk e.1)]) acc := by
  induction l with
  | nil =>
    intro acc x hx
    simpa using hx
  | cons e es ih =>
    intro acc x hx
    rw [List.foldl_cons]
    exact ih _ x (List.mem_append_left _ hx)

theorem updateCalls_mem (sslOk goOk : Nat → Bool) (l : List (Nat × Pod)) :
    ∀ (acc : List EngineCall), ∀ e ∈ l,
      EngineCall.addSSLLibPid e.1 (sslOk e.1) ∈ l.foldl (fun calls e =>
        calls ++ [EngineCall.addSSLLibPid e.1 (sslOk e.1),
                  EngineCall.addGoPid e.1 (goOk e.1)]) acc ∧
      EngineCall.addGoPid e.1 (goOk e.1) ∈ l.foldl (fun calls e =>
        calls ++ [EngineCall.addSSLLibPid e.1 (sslOk e.1),
                  EngineCall.addGoPid e.1 (goOk e.1)]) acc := by
  induction l with
  | nil =>
    intro acc e he
    cases he
  | cons e2 es ih =>
    intro acc e he
    rw [List.foldl_cons]
    rcases List.mem_cons.mp he with rfl | he2
    · constructor
      · exact updateCalls_mono sslOk goOk es _ _ (by simp)
      · exact updateCalls_mono sslOk goOk es _ _ (by simp)
    · exact ih _ e he2

/-- Claim C1 (counterexample): on the pod list with container IDs
    `docker://abc123` and the malformed `malformed` (no `://`), the index is
    NOT the single entry `abc123`: the malformed status is not skipped — it
    inserts the pod under the empty key, so the index has two entries. -/
theorem claim_C1_counterexample :
    buildContainerIdsMap [pod1Abc123, podOf (("malformed").data)]
      = [(("abc123").data, pod1Abc123), ([], podOf (("malformed").data))] ∧
    mapLookup (buildContainerIdsMap [pod1Abc123, podOf (("malformed").data)]) []
      = some (podOf (("malformed").data)) ∧
    (buildContainerIdsMap [pod1Abc123, podOf (("malformed").data)]).length = 2 :=
  ⟨by decide, by decide, by decide⟩

/-- Claim C1 (amended): for a pod list with one status `docker://abc123` and
    one malformed alphabetic status (no `://`), index construction is not
    aborted and yields `abc123 ↦ first pod` — but the malformed status is not
    skipped: `url.Parse` accepts it with an empty host, adding `"" ↦ its pod`. -/
theorem claim_C1_amended (m : List Char) (hm : m.all isAlphaC = true) :
    buildContainerIdsMap [pod1Abc123, podOf m]
      = [(("abc123").data, pod1Abc123), ([], podOf m)] := by
  have h1 : urlParse (("docker://abc123").data)
      = some ⟨("docker").data, ("abc123").data⟩ := by decide
  have h2 := urlParse_all_alpha hm
  have h3 : ((("abc123").data : List Char) == ([] : List Char)) = false := by decide
  simp only [buildContainerIdsMap, pod1Abc123, podOf, List.foldl_cons, List.foldl_nil,
    h1, h2, mapUpsert, List.any_nil, List.any_cons, h3, Bool.or_false, Bool.false_eq_true,
    if_false, List.nil_append]
  rfl

theorem claim_C1_amended_witness :
    buildContainerIdsMap [pod1Abc123, podOf (("malformed").data)]
      = [(("abc123").data, pod1Abc123), ([], podOf (("malformed").data))] :=
  claim_C1_amended (("malformed").data) (by decide)

/-- Claim C2: on single-line cgroup-v2 content
    `"0::/kubepods/besteffort/pod<uid>/<id>"` with `<id>` a nonempty
    alphanumeric identifier (hence no dash and no dot) and `<uid>` made of
    alphanumerics and dashes, the normalizer pipeline succeeds and returns
    exactly `<id>`. -/
theorem claim_C2 (id uid : List Char) (hne : id ≠ [])
    (hid : id.all isAlphaNumC = true)
    (huid : uid.all (fun c => isAlphaNumC c || c == '-') = true) :
    getProcessCgroupOfContent (("0::/kubepods/besteffort/pod").data ++ uid ++ '/' :: id)
      = some id :=
  getCgroup_v2_shape hne hid huid

theorem claim_C2_witness :
    getProcessCgroupOfContent (("0::/kubepods/besteffort/pod").data
      ++ ("7709c1d5-447c").data ++ '/' :: ("cafe01").data) = some (("cafe01").data) :=
  claim_C2 (("cafe01").data) (("7709c1d5-447c").data) (by decide) (by decide) (by decide)

/-- Claim C3 (counterexample): `normalizeCgroup` strips up to the FIRST dash,
    not the last: the basename `a-b-c.scope` reduces to `b-c`, not `c`. -/
theorem claim_C3_counterexample :
    normalizeCgroup (("a-b-c.scope").data) = ("b-c").data ∧
    ("b-c").data ≠ ("c").data :=
  ⟨by decide, by decide⟩

/-- Claim C3 (amended): for a basename containing a dash, `normalizeCgroup`
    strips everything up to and including the FIRST dash (the source uses
    `strings.Index`), so `x-y-z.scope` keeps `y-z` after suffix stripping. -/
theorem claim_C3_amended (x y z : List Char) (hx : x.all isAlphaNumC = true)
    (hy : y.all isAlphaNumC = true) (hz : z.all isAlphaNumC = true) :
    normalizeCgroup (x ++ '-' :: (y ++ '-' :: (z ++ (".scope").data)))
      = y ++ '-' :: z := by
  have hsc : (".scope").data = '.' :: ("scope").data := rfl
  have hxd : '-' ∉ x := not_mem_of_all_alphaNum hx (by decide)
  have hnoslash : '/' ∉ x ++ '-' :: (y ++ '-' :: (z ++ (".scope").data)) := by
    refine notMemAppend (not_mem_of_all_alphaNum hx (by decide)) (notMemCons (by decide) ?_)
    refine notMemAppend (not_mem_of_all_alphaNum hy (by decide)) (notMemCons (by decide) ?_)
    exact notMemAppend (not_mem_of_all_alphaNum hz (by decide)) (by decide)
  have hnospace : ∀ c ∈ x ++ '-' :: (y ++ '-' :: (z ++ (".scope").data)),
      isSpaceGo c = false := by
    have hlit : ∀ c ∈ (".scope").data, isSpaceGo c = false := by decide
    intro c hc
    rcases List.mem_append.mp hc with h1 | h1
    · exact isSpaceGo_false_of_alphaNum (List.all_eq_true.mp hx c h1)
    rcases List.mem_cons.mp h1 with rfl | h1
    · decide
    rcases List.mem_append.mp h1 with h2 | h2
    · exact isSpaceGo_false_of_alphaNum (List.all_eq_true.mp hy c h2)
    rcases List.mem_cons.mp h2 with rfl | h2
    · decide
    rcases List.mem_append.mp h2 with h3 | h3
    · exact isSpaceGo_false_of_alphaNum (List.all_eq_true.mp hz c h3)
    · exact hlit c h3
  have hdash : containsC '-' (x ++ '-' :: (y ++ '-' :: (z ++ (".scope").data))) = true := by
    rw [containsC_eq_true_iff]
    exact List.mem_append_right _ (List.mem_cons_self _ _)
  have hdot : containsC '.' (y ++ '-' :: (z ++ (".scope").data)) = true := by
    rw [containsC_eq_true_iff]
    refine List.mem_append_right _ (List.mem_cons_of_mem _ (List.mem_append_right _ ?_))
    decide
  have hR : y ++ '-' :: (z ++ (".scope").data) = (y ++ '-' :: z) ++ '.' :: ("scope").data := by
    rw [hsc]
    simp [List.append_assoc]
  simp only [normalizeCgroup]
  rw [pathBase_no_slash (by simp) hnoslash, trimSpace_of_no_space hnospace, hdash,
    if_pos rfl, afterFirst_append hxd, hdot]
  simp only [if_true]
  rw [hR, filepathExt_append (by decide) (y ++ '-' :: z), trimSuffix_append]

theorem claim_C3_amended_witness :
    normalizeCgroup (("a").data ++ '-' :: (("b").data ++ '-' :: (("c").data ++ (".scope").data)))
      = ("b").data ++ '-' :: ("c").data :=
  claim_C3_amended (("a").data) (("b").data) (("c").data) (by decide) (by decide) (by decide)

/-- Claim C4 (counterexample): with the global-target env variables set but
    the initial `updateTargets` pass failing, `createTracer` returns early —
    neither global registration is attempted, so the registrations are NOT
    independent of the discovery pass succeeding. -/
theorem claim_C4_counterexample :
    (("7").data).isEmpty = false ∧
    createTracer true false (("7").data) (("8").data) true true
      = ⟨false, false, false⟩ :=
  ⟨by decide, by decide⟩

/-- Claim C4 (amended): the env-gated global registrations are independent of
    the pod/process mapping but DO require the initial `updateTargets` pass to
    succeed: a discovery failure aborts `createTracer` before them, while after
    a successful pass both are attempted whenever their env variables are set. -/
theorem claim_C4_amended (upd ssl go : Bool) (e1 e2 : List Char) :
    (upd = false → createTracer true upd e1 e2 ssl go = ⟨false, false, false⟩) ∧
    (upd = true → ssl = true → go = true →
      createTracer true upd e1 e2 ssl go = ⟨true, !e1.isEmpty, !e2.isEmpty⟩) := by
  constructor
  · intro h
    simp [createTracer, h]
  · intro h1 h2 h3
    simp [createTracer, h1, h2, h3]

theorem claim_C4_amended_witness :
    createTracer true false (("7").data) (("8").data) true true = ⟨false, false, false⟩ ∧
    createTracer true true (("7").data) (("8").data) true true = ⟨true, true, true⟩ :=
  ⟨(claim_C4_amended false true true (("7").data) (("8").data)).1 rfl,
   ((claim_C4_amended true true true (("7").data) (("8").data)).2 rfl rfl rfl).trans
     (by decide)⟩

/-- Claim C5 (counterexample): the numeric gate is `numberRegex = "[0-9]+"`
    matched unanchored plus `strconv.Atoi`, not "entirely numeric": the
    directory entry named `+5` is not entirely numeric, yet host-mode
    enumeration yields its PID 5. -/
theorem claim_C5_counterexample :
    findContainerPidsHost fsMixedEntries none = some [1, 2, 17, 5] ∧
    (("+5").data).all isDigitC = false :=
  ⟨by decide, by decide⟩

/-- Claim C5 (amended): an entry contributes a candidate PID iff it is a
    directory whose name contains at least one decimal digit and parses via
    `Atoi` (which also accepts signed forms such as `+5`); on the listing
    `["1", "2", "abc", "17"]` the yield is exactly `{1, 2, 17}`. -/
theorem claim_C5_amended :
    (∀ (entries : List DirEntry) (cgf cmdf : List Char → Option (List Char)),
      findContainerPidsHost ⟨some entries, cgf, cmdf⟩ none
        = some (hostModeCandidates entries)) ∧
    findContainerPidsHost fsFourEntries none = some [1, 2, 17] :=
  ⟨findHost_char, by decide⟩

/-- Claim C6: in a reconciliation pass, every discovered PID gets both the
    native-library and the managed-runtime registration call, whatever the
    per-call success oracles say (failures are only logged), and the pass
    reports success. -/
theorem claim_C6 (fs : ProcFS) (pods : List Pod) (sslOk goOk : Nat → Bool)
    (m : List (Nat × Pod))
    (h : findContainerPids fs (buildContainerIdsMap pods) = some m) :
    (UpdateTargets fs pods sslOk goOk).2 = true ∧
    ∀ e ∈ m,
      EngineCall.addSSLLibPid e.1 (sslOk e.1) ∈ (UpdateTargets fs pods sslOk goOk).1 ∧
      EngineCall.addGoPid e.1 (goOk e.1) ∈ (UpdateTargets fs pods sslOk goOk).1 := by
  simp only [UpdateTargets, h]
  constructor
  · trivial
  · intro e he
    exact updateCalls_mem sslOk goOk m _ e he

theorem claim_C6_witness :
    (UpdateTargets fsTwoPids [podAbc] (fun p => p != 5) (fun _ => true)).2 = true ∧
    EngineCall.addGoPid 5 true
      ∈ (UpdateTargets fsTwoPids [podAbc] (fun p => p != 5) (fun _ => true)).1 ∧
    EngineCall.addSSLLibPid 5 false
      ∈ (UpdateTargets fsTwoPids [podAbc] (fun p => p != 5) (fun _ => true)).1 ∧
    EngineCall.addSSLLibPid 6 true
      ∈ (UpdateTargets fsTwoPids [podAbc] (fun p => p != 5) (fun _ => true)).1 := by
  have h := claim_C6 fsTwoPids [podAbc] (fun p => p != 5) (fun _ => true)
    [(5, podAbc), (6, podAbc)] (by decide)
  refine ⟨h.1, ?_, ?_, ?_⟩
  · exact (h.2 (5, podAbc) (by decide)).2
  · exact (h.2 (5, podAbc) (by decide)).1
  · exact (h.2 (6, podAbc) (by decide)).1

/-- Claim C7 (round trip): for every alphanumeric container ID and every shape
    of §8 properties 1–3, the cgroup normalizer returns the ID, the index
    builder stores `docker://<id>` under exactly that ID, and the index lookup
    by the normalized identifier succeeds. -/
theorem claim_C7 (id uid : List Char) (hne : id ≠ [])
    (hid : id.all isAlphaNumC = true)
    (huid : uid.all (fun c => isAlphaNumC c || c == '-') = true) :
    (getProcessCgroupOfContent (("0::/kubepods/besteffort/pod").data ++ uid ++ '/' :: id)
        = some id ∧
      getProcessCgroupOfContent (intercalateChar '\n'
        [("4:memory:/unrelated").data, ("5:pids:/docker/").data ++ id]) = some id ∧
      getProcessCgroupOfContent
        (("0::/kubepods.slice/kubepods-burstable.slice/kubepods-burstable-pod").data
          ++ uid ++ (".slice/docker-").data ++ id ++ (".scope").data) = some id) ∧
    (urlParse (("docker://").data ++ id)).map GoURL.host = some id ∧
    mapLookup (buildContainerIdsMap [⟨0, [⟨("docker://").data ++ id⟩]⟩]) id
      = some ⟨0, [⟨("docker://").data ++ id⟩]⟩ := by
  have hu := urlParse_docker_host hid
  refine ⟨⟨getCgroup_v2_shape hne hid huid, ?_, getCgroup_systemd_shape hid huid⟩, ?_, ?_⟩
  · exact getCgroup_v1_pids_shape [("4:memory:/unrelated").data] [] hne hid
      (by decide) (by decide) (by decide) (Or.inl (by decide))
  · rw [hu]
    rfl
  · have hb : buildContainerIdsMap [⟨0, [⟨("docker://").data ++ id⟩]⟩]
        = [(id, ⟨0, [⟨("docker://").data ++ id⟩]⟩)] := by
      simp only [buildContainerIdsMap, List.foldl_cons, List.foldl_nil, hu, mapUpsert,
        List.any_nil, Bool.false_eq_true, if_false, List.nil_append]
    rw [hb]
    simp only [mapLookup]
    rw [List.find?_cons_of_pos _ (by simp)]

theorem claim_C7_witness :
    getProcessCgroupOfContent (("0::/kubepods/besteffort/pod").data
      ++ ("ab-cd").data ++ '/' :: ("cafe").data) = some (("cafe").data) ∧
    mapLookup (buildContainerIdsMap [⟨0, [⟨("docker://").data ++ ("cafe").data⟩]⟩])
      (("cafe").data) = some ⟨0, [⟨("docker://").data ++ ("cafe").data⟩]⟩ :=
  ⟨(claim_C7 (("cafe").data) (("ab-cd").data) (by decide) (by decide) (by decide)).1.1,
   (claim_C7 (("cafe").data) (("ab-cd").data) (by decide) (by decide) (by decide)).2.2⟩

/-- Claim C8: on multi-line cgroup-v1 content whose `pids` line is
    `"5:pids:/docker/<id>"` among unrelated controller lines, the normalizer
    selects that line, takes the part after its last `:`, and returns `<id>`. -/
theorem claim_C8 (id : List Char) (pre post : List (List Char)) (hne : id ≠ [])
    (hid : id.all isAlphaNumC = true)
    (hpre : ∀ l ∈ pre, containsSubstr l pidsToken = false)
    (hprenl : ∀ l ∈ pre, '\n' ∉ l) (hpostnl : ∀ l ∈ post, '\n' ∉ l)
    (hmulti : pre ≠ [] ∨ post ≠ []) :
    getProcessCgroupOfContent
      (intercalateChar '\n' (pre ++ ((("5:pids:/docker/").data ++ id) :: post)))
      = some id :=
  getCgroup_v1_pids_shape pre post hne hid hpre hprenl hpostnl hmulti

theorem claim_C8_witness :
    getProcessCgroupOfContent
      (intercalateChar '\n' ([("4:memory:/unrelated").data]
        ++ ((("5:pids:/docker/").data ++ ("cafe42").data) :: [("3:cpu:/other").data])))
      = some (("cafe42").data) :=
  claim_C8 (("cafe42").data) [("4:memory:/unrelated").data] [("3:cpu:/other").data]
    (by decide) (by decide) (by decide) (by decide) (by decide) (Or.inl (by decide))

/-- Claim C10: whenever the cgroup pipeline succeeds, the canonical identifier
    it returns contains no dash — `getProcessCgroup` splits on the last dash
    before normalizing, so `normalizeCgroup`'s own dash branch never fires on
    that call path. -/
theorem claim_C10 (content r : List Char)
    (h : getProcessCgroupOfContent content = some r) :
    containsC '-' r = false := by
  simp only [getProcessCgroupOfContent] at h
  by_cases hc : containsC '-' (extractCgroup (splitOnChar '\n' content)) = true
  · rw [if_pos hc] at h
    by_cases hq : lastPart '-' (extractCgroup (splitOnChar '\n' content)) = []
    · rw [if_pos hq] at h
      cases h
    · rw [if_neg hq] at h
      have hr := Option.some.inj h
      rw [← hr]
      exact containsC_eq_false_iff.mpr
        (normalizeCgroup_no_dash (not_mem_lastPart '-' _))
  · rw [if_neg hc] at h
    by_cases hq : extractCgroup (splitOnChar '\n' content) = []
    · rw [if_pos hq] at h
      cases h
    · rw [if_neg hq] at h
      have hr := Option.some.inj h
      rw [← hr]
      refine containsC_eq_false_iff.mpr (normalizeCgroup_no_dash ?_)
      exact containsC_eq_false_iff.mp (Bool.eq_false_iff.mpr hc)

theorem claim_C10_witness :
    getProcessCgroupOfContent (("0::/a/b").data) = some (("b").data) ∧
    containsC '-' (("b").data) = false :=
  ⟨by decide, claim_C10 (("0::/a/b").data) (("b").data) (by decide)⟩

end Tracer
